import Mathlib

/-!
# Verification of the DeepSCF effective-potential / correction-energy engine

Shallow embedding of `deepqc/scf/scf.py` (class `DeepSCF`).  Machine floats
are modelled as real numbers; torch tensors over fixed index sets are
modelled as functions on `Fin`-types; `einsum` expressions are modelled as
the corresponding finite sums over the repeated indices.

External collaborators (the pyscf integral library, `torch.symeig`, the
learned model `QCNet`, and torch's reverse-mode autodiff engine) are
parameters of the development; the theorems that need their documented
contracts (eigenvalues sorted ascending, `autograd.grad` returning the true
Fréchet derivative) take those contracts as explicit hypotheses.
-/

namespace DeepQC

/-! ## Auxiliary basis data model (`DEFAULT_BASIS`-shaped data, scf.py:11-14)

A basis entry in pyscf list format is `[l, row, row, ...]` where each row is
`[zeta, c1, c2, ...]`: an angular momentum `l` followed by one row per
radial (zeta) function. -/

structure BasisShell where
  l : ℕ
  table : List (List ℝ)

/-- scf.py:38, `self.shell_sec = sum(([2*b[0]+1] * (len(b)-1) for b in basis), [])`:
for each basis entry `b`, `len(b)-1` copies of the width `2*b[0]+1`,
all concatenated in order. -/
def shell_sec (basis : List BasisShell) : List ℕ :=
  (basis.map fun b => List.replicate b.table.length (2 * b.l + 1)).flatten

/-- Last-axis split of a tensor, modelling `torch.split(t, secs, -1)`
(scf.py:42): consecutive contiguous chunks whose lengths are given by
`secs`. -/
def splitList (secs : List ℕ) (xs : List ℝ) : List (List ℝ) :=
  match secs with
  | [] => []
  | n :: rest => xs.take n :: splitList rest (xs.drop n)

/-- The widths the spec's ShellPartitioner claim asserts: one block per
basis shell, of width `(2*l+1) * (number of zeta functions)`.
(Stated from the spec's words, for comparison with `shell_sec`.) -/
def specShellWidths (basis : List BasisShell) : List ℕ :=
  basis.map fun b => (2 * b.l + 1) * b.table.length

/-! ## Projection data model

`t_proj_ovlp` (scf.py:40) has shape `[nao × natm × nproj]`; after the split
(scf.py:42) the engine works with a family of per-shell blocks.  We model
the split family directly: `K` blocks, block `k` of last-axis width `w k`,
with coefficients `po k : Fin nao → Fin natm → Fin (w k) → ℝ`
(index convention of scf.py:22-26: `r`,`s` orbital, `a` atom, `p`,`q`
projected basis). -/

structure ProjShells (nao natm : ℕ) where
  K : ℕ
  w : Fin K → ℕ
  po : ∀ k : Fin K, Fin nao → Fin natm → Fin (w k) → ℝ

/-- Density / potential matrices in the molecular-orbital basis. -/
abbrev DMat (n : ℕ) := Fin n → Fin n → ℝ

/-- The space of per-shell projected blocks: for each shell `k`, an
`natm × w k × w k` tensor (the shape of `proj_dms`, scf.py:103). -/
abbrev Blocks {nao natm : ℕ} (S : ProjShells nao natm) :=
  ∀ k : Fin S.K, Fin natm → Fin (S.w k) → Fin (S.w k) → ℝ

variable {nao natm : ℕ}

/-- scf.py:103-104, `torch.einsum('rap,rs,saq->apq', po, t_dm, po)` for each
shell block `po`: the projected density blocks. -/
def proj_dms (S : ProjShells nao natm) (t_dm : DMat nao) : Blocks S :=
  fun k a p q => ∑ r, ∑ s, S.po k r a p * t_dm r s * S.po k s a q

/-- scf.py:44-45, `t_proj_aos = einsum('rap,saq->rsapq', po, po)` per shell. -/
def t_proj_aos (S : ProjShells nao natm) (k : Fin S.K) :
    Fin nao → Fin nao → Fin natm → Fin (S.w k) → Fin (S.w k) → ℝ :=
  fun r s a p q => S.po k r a p * S.po k s a q

/-- scf.py:110-111, `shell_vcs = einsum('rsapq,apq->rs', pao, gdm)` for each
shell, where `gdm` is that shell's gradient block. -/
def shell_vcs (S : ProjShells nao natm) (g : Blocks S) (k : Fin S.K) : DMat nao :=
  fun r s => ∑ a, ∑ p, ∑ q, t_proj_aos S k r s a p q * g k a p q

/-- scf.py:112, `vc = torch.stack(shell_vcs).sum(0)`. -/
def vc (S : ProjShells nao natm) (g : Blocks S) : DMat nao :=
  fun r s => ∑ k, shell_vcs S g k r s

/-! ## Eigendecomposition and descriptors

`torch.symeig(m)[0]` and `torch.symeig(m, eigenvectors=True)[0]` both return
the eigenvalues of the symmetric matrix `m`, in ascending order; the flag
only controls whether eigenvectors are additionally produced.  We model the
eigenvalue routine as a parameter `eig` shared by both call sites; its
documented contracts (ascending order) enter the theorems as hypotheses. -/

/-- The type of the external symmetric-eigenvalue routine `torch.symeig ∘ [0]`. -/
abbrev EigFun := (n : ℕ) → (Fin n → Fin n → ℝ) → Fin n → ℝ

/-- scf.py:105-106, `proj_eigs = [torch.symeig(dm, eigenvectors=True)[0] for dm in proj_dms]`. -/
def proj_eigs (S : ProjShells nao natm) (eig : EigFun) (t_dm : DMat nao) :
    ∀ k : Fin S.K, Fin natm → Fin (S.w k) → ℝ :=
  fun k a => eig (S.w k) (proj_dms S t_dm k a)

/-- scf.py:107, `ceig = torch.cat(proj_eigs, dim=-1).unsqueeze(0)`:
per batch-index (there is exactly one batch element) and per atom, the
per-shell eigenvalue vectors concatenated in shell order. -/
def ceig (S : ProjShells nao natm) (eig : EigFun) (t_dm : DMat nao) :
    Fin 1 → Fin natm → List ℝ :=
  fun _ a => (List.ofFn fun k => List.ofFn (proj_eigs S eig t_dm k a)).flatten

/-- The type of the learned functional `self.net` (scf.py:108): maps the
batched descriptor tensor (`1 × natm × nproj`) to the scalar `ec`. -/
abbrev NetFun (natm : ℕ) := (Fin 1 → Fin natm → List ℝ) → ℝ

/-- The descriptor tensor as a function of arbitrary projected blocks.
This is exactly the computation graph scf.py:105-107 builds on top of the
autograd leaves `proj_dms`: eigendecompose each block, concatenate along
the last axis, add the batch dimension. -/
def blocksDescriptor (S : ProjShells nao natm) (eig : EigFun) (X : Blocks S) :
    Fin 1 → Fin natm → List ℝ :=
  fun _ a => (List.ofFn fun k => List.ofFn fun i => eig (S.w k) (X k a) i).flatten

/-- The correction energy as a function of the projected blocks: the map
that `torch.autograd.grad(ec, proj_dms)` (scf.py:109) differentiates. -/
def netEig (S : ProjShells nao natm) (eig : EigFun) (net : NetFun natm) :
    Blocks S → ℝ :=
  fun X => net (blocksDescriptor S eig X)

/-- The type of the external reverse-mode autodiff oracle,
`torch.autograd.grad(ec, proj_dms)` (scf.py:109): from the leaf blocks to
the gradient blocks.  Its correctness contract (it returns the matrix of
the true Fréchet derivative of `netEig` at the leaves) is a hypothesis of
the theorems that use it. -/
abbrev GradFun {nao natm : ℕ} (S : ProjShells nao natm) := Blocks S → Blocks S

/-- scf.py:100-113, `t_get_ec`: returns `(ec, vc)` where
`ec = net(ceig)` and `vc` is the reconstruction built from the autograd
gradient blocks at `proj_dms`. -/
def t_get_ec (S : ProjShells nao natm) (eig : EigFun) (net : NetFun natm)
    (agrad : GradFun S) (t_dm : DMat nao) : ℝ × DMat nao :=
  (net (ceig S eig t_dm), vc S (agrad (proj_dms S t_dm)))

/-! ## `make_eig` (scf.py:115-125), the side-output descriptor path -/

/-- scf.py:120-121, `proj_dms = [torch.einsum('rap,rs,saq->apq', po, t_dm, po) ...]`
inside `make_eig` (same einsum as scf.py:103, without `requires_grad`). -/
def make_eig_proj_dms (S : ProjShells nao natm) (t_dm : DMat nao) : Blocks S :=
  fun k a p q => ∑ r, ∑ s, S.po k r a p * t_dm r s * S.po k s a q

/-- scf.py:122-123, `proj_eigs = [torch.symeig(dm)[0] for dm in proj_dms]`. -/
def make_eig_proj_eigs (S : ProjShells nao natm) (eig : EigFun) (t_dm : DMat nao) :
    ∀ k : Fin S.K, Fin natm → Fin (S.w k) → ℝ :=
  fun k a => eig (S.w k) (make_eig_proj_dms S t_dm k a)

/-- scf.py:124-125, `t_eig = torch.cat(proj_eigs, dim=-1)`, shape `natm × nproj`. -/
def make_eig (S : ProjShells nao natm) (eig : EigFun) (t_dm : DMat nao) :
    Fin natm → List ℝ :=
  fun a => (List.ofFn fun k => List.ofFn (make_eig_proj_eigs S eig t_dm k a)).flatten

/-! ## Effective potential and energy decomposition (scf.py:57-90) -/

/-- A potential with the auxiliary tags `lib.tag_array(vtot, ec=ec, v0=v0)`
(scf.py:75) attaches; `ec = none` models an array lacking the tag
(`getattr(vhf, 'ec', None) is None`, scf.py:84). -/
structure TaggedPot (n : ℕ) where
  v : DMat n
  ec : Option ℝ
  v0 : DMat n

/-- scf.py:57-76, `get_veff`: baseline potential `v0` from the inherited
Hartree-Fock solver (modelled as the external parameter `get_veff0`,
including its incremental `dm_last`/`vhf_last` handling), plus the
correction `vc`, tagged with `ec` and `v0`. -/
def get_veff (S : ProjShells nao natm) (eig : EigFun) (net : NetFun natm)
    (agrad : GradFun S) (get_veff0 : DMat nao → DMat nao) (dm : DMat nao) :
    TaggedPot nao :=
  let v0 := get_veff0 dm
  let ecvc := t_get_ec S eig net agrad dm
  { v := fun r s => v0 r s + ecvc.2 r s, ec := some ecvc.1, v0 := v0 }

/-- scf.py:78-90, `energy_elec`: if no potential is supplied, or the
supplied one lacks the `ec` tag, recompute via `get_veff`; then
`e1 = einsum('ij,ji', h1e, dm)`, `e_coul = einsum('ij,ji', v0, dm) * .5`,
returning `(e1 + e_coul + ec, e_coul + ec)` (all quantities real, so the
`.real` of scf.py:90 is the identity). -/
noncomputable def energy_elec (S : ProjShells nao natm) (eig : EigFun) (net : NetFun natm)
    (agrad : GradFun S) (get_veff0 : DMat nao → DMat nao)
    (dm h1e : DMat nao) (vhf : Option (TaggedPot nao)) : ℝ × ℝ :=
  let vhf' := match vhf with
    | none => get_veff S eig net agrad get_veff0 dm
    | some t => match t.ec with
      | none => get_veff S eig net agrad get_veff0 dm
      | some _ => t
  let ec := vhf'.ec.getD 0
  let e1 := ∑ i, ∑ j, h1e i j * dm j i
  let e_coul := (∑ i, ∑ j, vhf'.v0 i j * dm j i) * (1 / 2)
  (e1 + e_coul + ec, e_coul + ec)

/-! ## Shape-checked entry to the descriptor path

scf.py guards the rank of the incoming density matrix
(`assert isinstance(dm, np.ndarray) and dm.ndim == 2`, scf.py:64) and
torch's `einsum('rap,rs,saq->apq', po, t_dm, po)` (scf.py:103/120) validates
that `t_dm` is a rank-2 tensor whose two sides both equal `nao` (the size of
the `r`/`s` axes of `po`), raising a shape error otherwise.  We model an
un-shaped numpy array and the combined validation. -/

inductive ScfError where
  | shapeError
deriving DecidableEq

/-- An array of unconstrained rank/size, as handed over by the external
SCF driver: a shape together with entries addressed by multi-index. -/
structure NdArray where
  shape : List ℕ
  data : List ℕ → ℝ

/-- The descriptor-extraction path with the shape validation of
scf.py:64/120 made explicit: a density matrix of any rank or size other
than `[nao, nao]` is rejected with a shape error before any numeric work;
a well-shaped one goes through `make_eig`. -/
def make_eig_checked (S : ProjShells nao natm) (eig : EigFun) (dm : NdArray) :
    Except ScfError (Fin natm → List ℝ) :=
  if dm.shape = [nao, nao] then
    .ok (make_eig S eig (fun r s => dm.data [r.1, s.1]))
  else
    .error .shapeError

/-! ## Spec-side formulations (for the refinement comparisons)

These definitions follow the spec's words (`M_a = P_a^T · D · P_a`,
`V_shell = Σ_a P_a · (dE/dM_a) · P_a^T`), written with `Matrix`
multiplication, to be compared with the einsum translations above. -/

/-- The per-atom slice `P_a` of a shell's projection block, as a
`nao × (w k)` matrix. -/
def atomProj (S : ProjShells nao natm) (k : Fin S.K) (a : Fin natm) :
    Matrix (Fin nao) (Fin (S.w k)) ℝ :=
  Matrix.of fun r p => S.po k r a p

/-- Spec 4.3: the projected density block `M_a = P_a^T · D · P_a`. -/
def specProjBlock (S : ProjShells nao natm) (D : Matrix (Fin nao) (Fin nao) ℝ)
    (k : Fin S.K) (a : Fin natm) : Matrix (Fin (S.w k)) (Fin (S.w k)) ℝ :=
  Matrix.transpose (atomProj S k a) * D * atomProj S k a

/-- Spec 4.5: the shell contribution `V_shell = Σ_a P_a · (dE/dM_a) · P_a^T`. -/
def specShellVc (S : ProjShells nao natm) (g : Blocks S) (k : Fin S.K) :
    Matrix (Fin nao) (Fin nao) ℝ :=
  ∑ a, atomProj S k a * Matrix.of (g k a) * Matrix.transpose (atomProj S k a)

/-! ## The projection as a (continuous) linear map in the density matrix -/

/-- `proj_dms` is linear in the density matrix (scf.py:103: the einsum
`'rap,rs,saq->apq'` contracts `t_dm` linearly). -/
def projLin (S : ProjShells nao natm) : DMat nao →ₗ[ℝ] Blocks S where
  toFun := proj_dms S
  map_add' D D' := by
    funext k a p q
    simp only [proj_dms, Pi.add_apply, mul_add, add_mul, Finset.sum_add_distrib]
  map_smul' c D := by
    funext k a p q
    simp only [proj_dms, Pi.smul_apply, smul_eq_mul, RingHom.id_apply,
      Finset.mul_sum]
    refine Finset.sum_congr rfl fun r _ => Finset.sum_congr rfl fun s _ => ?_
    ring

/-- `proj_dms` as a continuous linear map (all spaces finite-dimensional). -/
noncomputable def projCLM (S : ProjShells nao natm) :
    DMat nao →L[ℝ] Blocks S :=
  (projLin S).toContinuousLinearMap

/-! ## Concrete instances used by the witnesses

A one-orbital, one-atom system with a single width-1 shell, a diagonal-entry
eigenvalue routine, and two tiny functionals. -/

/-- One shell of width 1 on a 1-orbital, 1-atom system; all projection
coefficients equal to 1. -/
abbrev S1 : ProjShells 1 1 := ⟨1, fun _ => 1, fun _ _ _ _ => 1⟩

/-- A concrete eigenvalue routine for the witnesses (on 1×1 blocks it is
the exact eigenvalue map). -/
abbrev eig1 : EigFun := fun _ M i => M i i

/-- A concrete learned functional: reads the single descriptor entry. -/
abbrev net1 : NetFun 1 := fun c => (c 0 0).headI

/-- The zero functional (spec §8, zero-functional reduction). -/
abbrev netZero : NetFun 1 := fun _ => 0

/-- A concrete (symmetric) 1×1 density matrix. -/
abbrev D1 : DMat 1 := fun _ _ => 1

/-- The exact gradient blocks of `netEig S1 eig1 net1` (which is the linear
map `X ↦ X 0 0 0 0`): all entries 1. -/
abbrev agrad1 : GradFun S1 := fun _ _ _ _ _ => 1

/-- The exact gradient blocks of the zero functional: all entries 0. -/
abbrev agradZero : GradFun S1 := fun _ _ _ _ _ => 0

/-- A concrete auxiliary basis for the ShellPartitioner claims: one s-shell
(`l = 0`) with two zeta functions (two table rows). -/
abbrev exBasis : List BasisShell := [⟨0, [[1, 1], [2, 1]]⟩]

/-- The evaluation `X ↦ X 0 0 0 0` as a continuous linear map: the Fréchet
derivative of `netEig S1 eig1 net1` everywhere. -/
def L1 : Blocks S1 →L[ℝ] ℝ where
  toFun := fun X => X 0 0 0 0
  map_add' := fun _ _ => rfl
  map_smul' := fun _ _ => rfl
  cont := (continuous_apply (0 : Fin 1)).comp
    ((continuous_apply (0 : Fin 1)).comp
      ((continuous_apply (0 : Fin 1)).comp (continuous_apply (0 : Fin 1))))

/-! ## Finite-sum reordering helpers -/

lemma sum_rot_left3 {α β γ M : Type*} [AddCommMonoid M]
    [Fintype α] [Fintype β] [Fintype γ] (f : α → β → γ → M) :
    (∑ a, ∑ b, ∑ c, f a b c) = ∑ b, ∑ c, ∑ a, f a b c := by
  calc (∑ a, ∑ b, ∑ c, f a b c)
      = ∑ b, ∑ a, ∑ c, f a b c := Finset.sum_comm
    _ = ∑ b, ∑ c, ∑ a, f a b c :=
        Finset.sum_congr rfl fun b _ => Finset.sum_comm

lemma sum_comm_five {α β γ δ ε M : Type*} [AddCommMonoid M]
    [Fintype α] [Fintype β] [Fintype γ] [Fintype δ] [Fintype ε]
    (f : α → β → γ → δ → ε → M) :
    (∑ a, ∑ b, ∑ c, ∑ d, ∑ e, f a b c d e)
      = ∑ d, ∑ e, ∑ a, ∑ b, ∑ c, f a b c d e := by
  calc (∑ a, ∑ b, ∑ c, ∑ d, ∑ e, f a b c d e)
      = ∑ a, ∑ b, ∑ d, ∑ c, ∑ e, f a b c d e :=
        Finset.sum_congr rfl fun a _ => Finset.sum_congr rfl fun b _ =>
          Finset.sum_comm
    _ = ∑ a, ∑ d, ∑ b, ∑ c, ∑ e, f a b c d e :=
        Finset.sum_congr rfl fun a _ => Finset.sum_comm
    _ = ∑ d, ∑ a, ∑ b, ∑ c, ∑ e, f a b c d e := Finset.sum_comm
    _ = ∑ d, ∑ a, ∑ b, ∑ e, ∑ c, f a b c d e :=
        Finset.sum_congr rfl fun d _ => Finset.sum_congr rfl fun a _ =>
          Finset.sum_congr rfl fun b _ => Finset.sum_comm
    _ = ∑ d, ∑ a, ∑ e, ∑ b, ∑ c, f a b c d e :=
        Finset.sum_congr rfl fun d _ => Finset.sum_congr rfl fun a _ =>
          Finset.sum_comm
    _ = ∑ d, ∑ e, ∑ a, ∑ b, ∑ c, f a b c d e :=
        Finset.sum_congr rfl fun d _ => Finset.sum_comm

/-! ## Core algebra: the einsum contractions versus their matrix forms -/

/-- The einsum `'rap,rs,saq->apq'` (scf.py:103/120) computes exactly the
spec's projected density block `M_a = P_a^T · D · P_a`. -/
lemma proj_dms_eq_specProjBlock (S : ProjShells nao natm) (t_dm : DMat nao)
    (k : Fin S.K) (a : Fin natm) (p q : Fin (S.w k)) :
    proj_dms S t_dm k a p q = specProjBlock S (Matrix.of t_dm) k a p q := by
  unfold proj_dms specProjBlock atomProj
  simp only [Matrix.mul_apply, Matrix.transpose_apply, Matrix.of_apply]
  rw [Finset.sum_comm]
  refine Finset.sum_congr rfl fun s _ => ?_
  rw [Finset.sum_mul]

/-- The einsum `'rsapq,apq->rs'` against `t_proj_aos` (scf.py:110-111)
computes exactly the spec's shell contribution
`V_shell = Σ_a P_a · (dE/dM_a) · P_a^T`. -/
lemma shell_vcs_eq_specShellVc (S : ProjShells nao natm) (g : Blocks S)
    (k : Fin S.K) (r s : Fin nao) :
    shell_vcs S g k r s = specShellVc S g k r s := by
  unfold shell_vcs specShellVc t_proj_aos atomProj
  rw [Finset.sum_apply, Finset.sum_apply]
  refine Finset.sum_congr rfl fun a _ => ?_
  simp only [Matrix.mul_apply, Matrix.transpose_apply, Matrix.of_apply]
  rw [Finset.sum_comm]
  refine Finset.sum_congr rfl fun p _ => ?_
  rw [Finset.sum_mul]
  refine Finset.sum_congr rfl fun q _ => ?_
  ring

/-- Pairing a gradient-block family `g` against the (linear-in-`D`)
projection of a perturbation `H` equals pairing the reconstructed
`shell_vcs` against `H`: the per-shell chain-rule transpose identity. -/
lemma shell_repr (S : ProjShells nao natm) (g : Blocks S) (k : Fin S.K)
    (H : DMat nao) :
    (∑ a, ∑ p, ∑ q, g k a p q * proj_dms S H k a p q)
      = ∑ r, ∑ s, shell_vcs S g k r s * H r s := by
  calc (∑ a, ∑ p, ∑ q, g k a p q * proj_dms S H k a p q)
      = ∑ a, ∑ p, ∑ q, ∑ r, ∑ s,
          t_proj_aos S k r s a p q * g k a p q * H r s := by
        unfold proj_dms t_proj_aos
        simp only [Finset.mul_sum]
        refine Finset.sum_congr rfl fun a _ => Finset.sum_congr rfl fun p _ =>
          Finset.sum_congr rfl fun q _ => Finset.sum_congr rfl fun r _ =>
          Finset.sum_congr rfl fun s _ => by ring
    _ = ∑ r, ∑ s, ∑ a, ∑ p, ∑ q,
          t_proj_aos S k r s a p q * g k a p q * H r s :=
        sum_comm_five fun a p q r s => t_proj_aos S k r s a p q * g k a p q * H r s
    _ = ∑ r, ∑ s, shell_vcs S g k r s * H r s := by
        simp only [shell_vcs, Finset.sum_mul]

/-- Summed over shells: pairing gradient blocks with projected
perturbations equals pairing the full `vc` with the perturbation. -/
lemma grad_repr_vc (S : ProjShells nao natm) (g : Blocks S) (H : DMat nao) :
    (∑ k, ∑ a, ∑ p, ∑ q, g k a p q * proj_dms S H k a p q)
      = ∑ r, ∑ s, vc S g r s * H r s := by
  calc (∑ k, ∑ a, ∑ p, ∑ q, g k a p q * proj_dms S H k a p q)
      = ∑ k, ∑ r, ∑ s, shell_vcs S g k r s * H r s :=
        Finset.sum_congr rfl fun k _ => shell_repr S g k H
    _ = ∑ r, ∑ s, ∑ k, shell_vcs S g k r s * H r s :=
        sum_rot_left3 fun k r s => shell_vcs S g k r s * H r s
    _ = ∑ r, ∑ s, vc S g r s * H r s := by
        simp only [vc, Finset.sum_mul]

lemma projCLM_coe (S : ProjShells nao natm) : ⇑(projCLM S) = proj_dms S :=
  LinearMap.coe_toContinuousLinearMap' (projLin S)

/-! ## Claim theorems -/

/-- C1.  For every symmetric density matrix `D` of the expected size, the
correction potential returned by `t_get_ec` is the true functional
derivative of the correction energy with respect to `D`: given that torch's
autodiff (the external contract of spec §4.4) returns in `agrad` the matrix
representation of the Fréchet derivative `L` of the blocks-to-energy map
`netEig` (i.e. `ec` through eigendecomposition and the net) at the leaves
`proj_dms S D`, the composite `D' ↦ ec(D')` — the first output of
`t_get_ec` — is differentiable at `D` with derivative represented entry-wise
by the second output `vc`: `V_c[r,s] = dE_c/dD[r,s]`.  The reconstruction
`Σ_a P_a · (dE/dM_a) · P_a^T` is exactly the chain-rule transpose of the
projection `M_a = P_a^T · D · P_a`. -/
theorem t_get_ec_vc_is_functional_derivative (S : ProjShells nao natm)
    (eig : EigFun) (net : NetFun natm) (agrad : GradFun S) (D : DMat nao)
    (hD : ∀ r s, D r s = D s r) (L : Blocks S →L[ℝ] ℝ)
    (hF : HasFDerivAt (netEig S eig net) L (proj_dms S D))
    (hg : ∀ X : Blocks S,
      L X = ∑ k, ∑ a, ∑ p, ∑ q, agrad (proj_dms S D) k a p q * X k a p q) :
    (∀ D' : DMat nao,
        (t_get_ec S eig net agrad D').1 = netEig S eig net (proj_dms S D')) ∧
    ∃ Lc : DMat nao →L[ℝ] ℝ,
      HasFDerivAt (fun D' : DMat nao => netEig S eig net (proj_dms S D')) Lc D ∧
      ∀ H : DMat nao,
        Lc H = ∑ r, ∑ s, (t_get_ec S eig net agrad D).2 r s * H r s := by
  refine ⟨fun D' => rfl, L.comp (projCLM S), ?_, ?_⟩
  · have h1 : HasFDerivAt (⇑(projCLM S)) (projCLM S) D := (projCLM S).hasFDerivAt
    have h2 : HasFDerivAt (netEig S eig net) L (projCLM S D) := by
      rw [show (projCLM S) D = proj_dms S D from congrFun (projCLM_coe S) D]
      exact hF
    have h3 := h2.comp D h1
    have h4 : netEig S eig net ∘ ⇑(projCLM S)
        = fun D' : DMat nao => netEig S eig net (proj_dms S D') := by
      rw [projCLM_coe]; rfl
    rwa [h4] at h3
  · intro H
    calc (L.comp (projCLM S)) H
        = L (proj_dms S H) := by
          rw [ContinuousLinearMap.comp_apply,
            show (projCLM S) H = proj_dms S H from congrFun (projCLM_coe S) H]
      _ = ∑ k, ∑ a, ∑ p, ∑ q,
            agrad (proj_dms S D) k a p q * proj_dms S H k a p q := hg _
      _ = ∑ r, ∑ s, vc S (agrad (proj_dms S D)) r s * H r s :=
          grad_repr_vc S (agrad (proj_dms S D)) H
      _ = ∑ r, ∑ s, (t_get_ec S eig net agrad D).2 r s * H r s := rfl

lemma netEig_S1_net1_eq_L1 : netEig S1 eig1 net1 = ⇑L1 := by
  funext X
  simp [netEig, blocksDescriptor, net1, eig1, L1, List.ofFn_succ]

lemma hasFDeriv_netEig_S1 :
    HasFDerivAt (netEig S1 eig1 net1) L1 (proj_dms S1 D1) := by
  rw [netEig_S1_net1_eq_L1]; exact L1.hasFDerivAt

lemma L1_repr_agrad1 (X : Blocks S1) :
    L1 X = ∑ k, ∑ a, ∑ p, ∑ q, agrad1 (proj_dms S1 D1) k a p q * X k a p q := by
  simp [L1, agrad1]

/-- Witness for C1: the hypotheses of
`t_get_ec_vc_is_functional_derivative` hold at the concrete instance
(`S1`, `eig1`, `net1`, `agrad1`, `D1`, `L1`), and the conclusion follows by
applying the theorem there. -/
theorem t_get_ec_vc_is_functional_derivative_witness :
    (∀ r s : Fin 1, D1 r s = D1 s r) ∧
    HasFDerivAt (netEig S1 eig1 net1) L1 (proj_dms S1 D1) ∧
    (∀ X : Blocks S1,
      L1 X = ∑ k, ∑ a, ∑ p, ∑ q, agrad1 (proj_dms S1 D1) k a p q * X k a p q) ∧
    ((∀ D' : DMat 1,
        (t_get_ec S1 eig1 net1 agrad1 D').1
          = netEig S1 eig1 net1 (proj_dms S1 D')) ∧
      ∃ Lc : DMat 1 →L[ℝ] ℝ,
        HasFDerivAt (fun D' : DMat 1 => netEig S1 eig1 net1 (proj_dms S1 D'))
          Lc D1 ∧
        ∀ H : DMat 1,
          Lc H = ∑ r, ∑ s, (t_get_ec S1 eig1 net1 agrad1 D1).2 r s * H r s) :=
  ⟨fun _ _ => rfl, hasFDeriv_netEig_S1, L1_repr_agrad1,
    t_get_ec_vc_is_functional_derivative S1 eig1 net1 agrad1 D1
      (fun _ _ => rfl) L1 hasFDeriv_netEig_S1 L1_repr_agrad1⟩

lemma splitList_map_length (secs : List ℕ) (xs : List ℝ)
    (h : xs.length = secs.sum) :
    (splitList secs xs).map List.length = secs := by
  induction secs generalizing xs with
  | nil => rfl
  | cons n rest ih =>
    simp only [splitList, List.map_cons, List.length_take]
    congr 1
    · simp only [List.sum_cons] at h
      omega
    · exact ih (xs.drop n) (by simp only [List.length_drop, List.sum_cons] at h ⊢; omega)

lemma splitList_flatten (secs : List ℕ) (xs : List ℝ)
    (h : xs.length = secs.sum) :
    (splitList secs xs).flatten = xs := by
  induction secs generalizing xs with
  | nil =>
    simp only [List.sum_nil] at h
    simp [splitList, List.eq_nil_of_length_eq_zero h]
  | cons n rest ih =>
    simp only [splitList, List.flatten_cons]
    rw [ih (xs.drop n) (by simp only [List.length_drop, List.sum_cons] at h ⊢; omega)]
    exact List.take_append_drop n xs

lemma shell_sec_sum (basis : List BasisShell) :
    (shell_sec basis).sum = (specShellWidths basis).sum := by
  induction basis with
  | nil => rfl
  | cons b rest ih =>
    simp only [shell_sec, specShellWidths, List.map_cons, List.flatten_cons,
      List.sum_cons, List.sum_append, List.sum_replicate, smul_eq_mul] at ih ⊢
    rw [ih]
    ring

/-- C2 counterexample: for a basis with a single s-shell (`l = 0`) carrying
two zeta functions, the code's `shell_sec` produces the split widths
`[1, 1]` — two blocks of width `2l+1 = 1`, one per zeta function — while
the claim predicts a single block of width `(2l+1) * 2 = 2` for that shell.
The two width lists differ, so the ShellPartitioner does not split into one
sub-tensor per angular-momentum shell of width `(2l+1) × zeta-count`. -/
theorem shell_sec_counterexample :
    shell_sec exBasis = [1, 1] ∧
    specShellWidths exBasis = [2] ∧
    shell_sec exBasis ≠ specShellWidths exBasis :=
  ⟨rfl, rfl, by decide⟩

/-- C2 amended.  The ShellPartitioner splits the ProjectionTensor along its
last axis into one contiguous sub-tensor per (shell, zeta-function) pair:
for each shell with angular momentum `l` and `z` zeta functions it emits
`z` consecutive blocks, each of width `2l+1`, preserving the order of the
shells in the AuxiliaryBasisSpec; the blocks have exactly those widths and
concatenate back to the original axis, and the total width contributed by
each shell is `(2l+1) × z`. -/
theorem shell_sec_split_per_zeta (basis : List BasisShell) (xs : List ℝ)
    (h : xs.length = (shell_sec basis).sum) :
    shell_sec basis
        = (basis.map fun b => List.replicate b.table.length (2 * b.l + 1)).flatten ∧
    (splitList (shell_sec basis) xs).map List.length = shell_sec basis ∧
    (splitList (shell_sec basis) xs).flatten = xs ∧
    (shell_sec basis).sum = (specShellWidths basis).sum := by
  exact ⟨rfl, splitList_map_length _ _ h, splitList_flatten _ _ h,
    shell_sec_sum basis⟩

/-- Witness for C2's amended statement: the split of a concrete two-entry
axis by the concrete basis of the counterexample. -/
theorem shell_sec_split_per_zeta_witness :
    ([(5 : ℝ), 7].length = (shell_sec exBasis).sum) ∧
    (shell_sec exBasis
        = (exBasis.map fun b => List.replicate b.table.length (2 * b.l + 1)).flatten ∧
      (splitList (shell_sec exBasis) [(5 : ℝ), 7]).map List.length
          = shell_sec exBasis ∧
      (splitList (shell_sec exBasis) [(5 : ℝ), 7]).flatten = [(5 : ℝ), 7] ∧
      (shell_sec exBasis).sum = (specShellWidths exBasis).sum) :=
  ⟨rfl, shell_sec_split_per_zeta exBasis [(5 : ℝ), 7] rfl⟩

/-- C3.  For every symmetric density matrix `D` of the expected size, the
descriptor extractor computes for each shell and atom `a` the projected
block `M_a = P_a^T · D · P_a` (contracting over the orbital index), takes
the eigenvalues of each `M_a` (sorted ascending per the contract of the
external eigenvalue routine, taken here as a hypothesis on `eig`), discards
eigenvectors, concatenates across shells in the fixed shell order and
stacks across atoms: a tensor indexed by the `natm` atoms whose per-atom
row has length `Σ_k w k`, the total descriptor width. -/
theorem make_eig_descriptor_spec (S : ProjShells nao natm) (eig : EigFun)
    (D : DMat nao) (hD : ∀ r s, D r s = D s r) :
    (∀ k a p q, make_eig_proj_dms S D k a p q
        = specProjBlock S (Matrix.of D) k a p q) ∧
    (∀ a, make_eig S eig D a
        = (List.ofFn fun k => List.ofFn fun i =>
            eig (S.w k) (fun p q => specProjBlock S (Matrix.of D) k a p q) i).flatten) ∧
    (∀ a, (make_eig S eig D a).length = ∑ k, S.w k) ∧
    ((∀ n (M : Fin n → Fin n → ℝ), List.Sorted (· ≤ ·) (List.ofFn (eig n M))) →
      ∀ k a, List.Sorted (· ≤ ·) (List.ofFn (make_eig_proj_eigs S eig D k a))) := by
  have hblock : ∀ k a p q, make_eig_proj_dms S D k a p q
      = specProjBlock S (Matrix.of D) k a p q := fun k a p q =>
    proj_dms_eq_specProjBlock S D k a p q
  refine ⟨hblock, ?_, ?_, fun hsort k a => hsort _ _⟩
  · intro a
    unfold make_eig make_eig_proj_eigs
    have hM : ∀ k : Fin S.K, make_eig_proj_dms S D k a
        = fun p q => specProjBlock S (Matrix.of D) k a p q := fun k =>
      funext fun p => funext fun q => hblock k a p q
    congr 1
    exact congrArg List.ofFn (funext fun k => by rw [hM k])
  · intro a
    unfold make_eig
    rw [List.length_flatten]
    simp only [List.map_ofFn, Function.comp_def, List.length_ofFn]
    exact List.sum_ofFn

/-- Witness for C3 at the concrete one-orbital instance. -/
theorem make_eig_descriptor_spec_witness :
    (∀ r s : Fin 1, D1 r s = D1 s r) ∧
    ((∀ k a p q, make_eig_proj_dms S1 D1 k a p q
        = specProjBlock S1 (Matrix.of D1) k a p q) ∧
      (∀ a, make_eig S1 eig1 D1 a
          = (List.ofFn fun k => List.ofFn fun i =>
              eig1 (S1.w k) (fun p q => specProjBlock S1 (Matrix.of D1) k a p q) i).flatten) ∧
      (∀ a, (make_eig S1 eig1 D1 a).length = ∑ k, S1.w k) ∧
      ((∀ n (M : Fin n → Fin n → ℝ),
          List.Sorted (· ≤ ·) (List.ofFn (eig1 n M))) →
        ∀ k a, List.Sorted (· ≤ ·) (List.ofFn (make_eig_proj_eigs S1 eig1 D1 k a)))) :=
  ⟨fun _ _ => rfl,
    make_eig_descriptor_spec S1 eig1 D1 (fun _ _ => rfl)⟩

/-- C4.  For every shell `k` and gradient blocks `dE/dM_a`, the einsum
reconstruction `shell_vcs` equals the spec's basis change
`V_shell = Σ_a P_a · (dE/dM_a) · P_a^T` (contracting over the atom and
per-atom-width indices back into orbital × orbital space), and the full
correction potential `vc` — a matrix of the same `nao × nao` size as the
density matrix — is the sum of all shell contributions. -/
theorem vc_is_sum_of_shell_reconstructions (S : ProjShells nao natm)
    (g : Blocks S) :
    (∀ k r s, shell_vcs S g k r s = specShellVc S g k r s) ∧
    (∀ r s, vc S g r s = (∑ k, specShellVc S g k) r s) := by
  refine ⟨fun k r s => shell_vcs_eq_specShellVc S g k r s, fun r s => ?_⟩
  rw [Finset.sum_apply, Finset.sum_apply]
  exact Finset.sum_congr rfl fun k _ => shell_vcs_eq_specShellVc S g k r s

/-- `einsum('ij,ji', A, B)` is the trace of `B · A` (equivalently `A · B`). -/
lemma einsum_trace (A B : DMat nao) :
    (∑ i, ∑ j, A i j * B j i) = Matrix.trace (Matrix.of B * Matrix.of A) := by
  simp only [Matrix.trace, Matrix.diag, Matrix.mul_apply, Matrix.of_apply]
  rw [Finset.sum_comm]
  exact Finset.sum_congr rfl fun j _ =>
    Finset.sum_congr rfl fun i _ => mul_comm _ _

/-- C5.  Given density matrix `dm`, core Hamiltonian `h1e`, and an effective
potential tagged with correction energy `e` and baseline `v0`, the
energy-decomposition operation returns total electronic energy
`0.5·trace(D·V0) + trace(D·H) + Ec` and the two-electron-plus-correction
part `0.5·trace(D·V0) + Ec`; `Ec` is read from the tag (the right-hand
sides involve only `e` and `t.v0`, no re-evaluation of the functional). -/
theorem energy_elec_tagged (S : ProjShells nao natm) (eig : EigFun)
    (net : NetFun natm) (agrad : GradFun S) (get_veff0 : DMat nao → DMat nao)
    (dm h1e : DMat nao) (t : TaggedPot nao) (e : ℝ) (hta : t.ec = some e) :
    energy_elec S eig net agrad get_veff0 dm h1e (some t)
      = ((1 / 2) * Matrix.trace (Matrix.of dm * Matrix.of t.v0)
            + Matrix.trace (Matrix.of dm * Matrix.of h1e) + e,
         (1 / 2) * Matrix.trace (Matrix.of dm * Matrix.of t.v0) + e) := by
  simp only [energy_elec, hta, Option.getD_some]
  rw [einsum_trace h1e dm, einsum_trace t.v0 dm]
  exact Prod.ext (by ring) (by ring)

/-- Witness for C5 at a concrete tagged potential. -/
theorem energy_elec_tagged_witness :
    ((⟨D1, some 3, D1⟩ : TaggedPot 1).ec = some 3) ∧
    energy_elec S1 eig1 net1 agrad1 id D1 D1 (some ⟨D1, some 3, D1⟩)
      = ((1 / 2) * Matrix.trace (Matrix.of D1 * Matrix.of (⟨D1, some 3, D1⟩ : TaggedPot 1).v0)
            + Matrix.trace (Matrix.of D1 * Matrix.of D1) + 3,
         (1 / 2) * Matrix.trace (Matrix.of D1 * Matrix.of (⟨D1, some 3, D1⟩ : TaggedPot 1).v0) + 3) :=
  ⟨rfl, energy_elec_tagged S1 eig1 net1 agrad1 id D1 D1 ⟨D1, some 3, D1⟩ 3 rfl⟩

/-- C6.  If the potential handed to the energy decomposition lacks the
correction-energy tag — or no potential is supplied at all — the operation
does not fail: it recomputes the full effective potential from the density
matrix via `get_veff` and proceeds with the recomputed potential, which
always carries the tag. -/
theorem energy_elec_missing_tag_recomputes (S : ProjShells nao natm)
    (eig : EigFun) (net : NetFun natm) (agrad : GradFun S)
    (get_veff0 : DMat nao → DMat nao) (dm h1e : DMat nao) :
    energy_elec S eig net agrad get_veff0 dm h1e none
      = energy_elec S eig net agrad get_veff0 dm h1e
          (some (get_veff S eig net agrad get_veff0 dm)) ∧
    (∀ t : TaggedPot nao, t.ec = none →
      energy_elec S eig net agrad get_veff0 dm h1e (some t)
        = energy_elec S eig net agrad get_veff0 dm h1e
            (some (get_veff S eig net agrad get_veff0 dm))) ∧
    (get_veff S eig net agrad get_veff0 dm).ec
      = some (t_get_ec S eig net agrad dm).1 := by
  refine ⟨rfl, fun t ht => ?_, rfl⟩
  simp only [energy_elec, ht]
  rfl

/-- Witness for C6 at a concrete untagged potential. -/
theorem energy_elec_missing_tag_recomputes_witness :
    ((⟨D1, none, D1⟩ : TaggedPot 1).ec = none) ∧
    energy_elec S1 eig1 net1 agrad1 id D1 D1 (some ⟨D1, none, D1⟩)
      = energy_elec S1 eig1 net1 agrad1 id D1 D1
          (some (get_veff S1 eig1 net1 agrad1 id D1)) :=
  ⟨rfl, (energy_elec_missing_tag_recomputes S1 eig1 net1 agrad1 id D1 D1).2.1
    ⟨D1, none, D1⟩ rfl⟩

/-- C7.  The descriptor-extraction path is safe for every density matrix of
the expected `[nao, nao]` shape — it returns the descriptors — and for
every array whose rank or size differs it fails with the shape error (and
no other outcome). -/
theorem make_eig_checked_shape (S : ProjShells nao natm) (eig : EigFun)
    (dm : NdArray) :
    (dm.shape ≠ [nao, nao] →
      make_eig_checked S eig dm = .error .shapeError) ∧
    (dm.shape = [nao, nao] →
      make_eig_checked S eig dm
        = .ok (make_eig S eig (fun r s => dm.data [r.1, s.1]))) := by
  constructor <;> intro h <;> simp [make_eig_checked, h]

/-- Witness for C7: a rank-2 array of the wrong size is rejected with the
shape error; a well-shaped array is accepted. -/
theorem make_eig_checked_shape_witness :
    ((⟨[2, 3], fun _ => 0⟩ : NdArray).shape ≠ [1, 1]) ∧
    make_eig_checked S1 eig1 ⟨[2, 3], fun _ => 0⟩ = .error .shapeError ∧
    ((⟨[1, 1], fun _ => 1⟩ : NdArray).shape = [1, 1]) ∧
    make_eig_checked S1 eig1 ⟨[1, 1], fun _ => 1⟩
      = .ok (make_eig S1 eig1 (fun r s => (⟨[1, 1], fun _ => 1⟩ : NdArray).data [r.1, s.1])) :=
  ⟨by decide,
    (make_eig_checked_shape S1 eig1 ⟨[2, 3], fun _ => 0⟩).1 (by decide),
    rfl,
    (make_eig_checked_shape S1 eig1 ⟨[1, 1], fun _ => 1⟩).2 rfl⟩

/-- C8.  If the learned functional always evaluates to zero, then for every
density matrix the correction energy is exactly zero, the correction
potential is the zero matrix, and the effective potential returned by
`get_veff` equals the baseline potential `v0` (the gradient hypotheses are
the autodiff contract: `agrad` represents the derivative of the
blocks-to-energy map, which for the zero functional is the zero map). -/
theorem zero_functional_reduction (S : ProjShells nao natm) (eig : EigFun)
    (net : NetFun natm) (agrad : GradFun S) (get_veff0 : DMat nao → DMat nao)
    (dm : DMat nao) (hnet : ∀ c, net c = 0) (L : Blocks S →L[ℝ] ℝ)
    (hF : HasFDerivAt (netEig S eig net) L (proj_dms S dm))
    (hg : ∀ X : Blocks S,
      L X = ∑ k, ∑ a, ∑ p, ∑ q, agrad (proj_dms S dm) k a p q * X k a p q) :
    (t_get_ec S eig net agrad dm).1 = 0 ∧
    (∀ r s, (t_get_ec S eig net agrad dm).2 r s = 0) ∧
    (∀ r s, (get_veff S eig net agrad get_veff0 dm).v r s = get_veff0 dm r s) := by
  have hzero : netEig S eig net = fun _ => (0 : ℝ) := funext fun X => hnet _
  have hL0 : L = 0 := by
    have h0 : HasFDerivAt (netEig S eig net) (0 : Blocks S →L[ℝ] ℝ)
        (proj_dms S dm) := by
      rw [hzero]; exact hasFDerivAt_const 0 _
    exact hF.unique h0
  have hrep : ∀ X : Blocks S,
      (∑ k, ∑ a, ∑ p, ∑ q, agrad (proj_dms S dm) k a p q * X k a p q) = 0 :=
    fun X => by rw [← hg X, hL0]; simp
  have hvc : ∀ r s, vc S (agrad (proj_dms S dm)) r s = 0 := by
    intro r s
    calc vc S (agrad (proj_dms S dm)) r s
        = ∑ k, ∑ a, ∑ p, ∑ q, agrad (proj_dms S dm) k a p q
            * (S.po k r a p * S.po k s a q) := by
          unfold vc shell_vcs t_proj_aos
          refine Finset.sum_congr rfl fun k _ => Finset.sum_congr rfl fun a _ =>
            Finset.sum_congr rfl fun p _ => Finset.sum_congr rfl fun q _ => ?_
          ring
      _ = 0 := hrep fun k a p q => S.po k r a p * S.po k s a q
  refine ⟨hnet _, hvc, fun r s => ?_⟩
  show get_veff0 dm r s + (t_get_ec S eig net agrad dm).2 r s = get_veff0 dm r s
  rw [show (t_get_ec S eig net agrad dm).2 r s
      = vc S (agrad (proj_dms S dm)) r s from rfl, hvc r s, add_zero]

/-- Witness for C8 with the concrete zero functional. -/
theorem zero_functional_reduction_witness :
    (∀ c : Fin 1 → Fin 1 → List ℝ, netZero c = 0) ∧
    HasFDerivAt (netEig S1 eig1 netZero) (0 : Blocks S1 →L[ℝ] ℝ)
      (proj_dms S1 D1) ∧
    (∀ X : Blocks S1, (0 : Blocks S1 →L[ℝ] ℝ) X
        = ∑ k, ∑ a, ∑ p, ∑ q, agradZero (proj_dms S1 D1) k a p q * X k a p q) ∧
    ((t_get_ec S1 eig1 netZero agradZero D1).1 = 0 ∧
      (∀ r s, (t_get_ec S1 eig1 netZero agradZero D1).2 r s = 0) ∧
      (∀ r s, (get_veff S1 eig1 netZero agradZero id D1).v r s = id D1 r s)) := by
  have h1 : ∀ c : Fin 1 → Fin 1 → List ℝ, netZero c = 0 := fun _ => rfl
  have h2 : HasFDerivAt (netEig S1 eig1 netZero) (0 : Blocks S1 →L[ℝ] ℝ)
      (proj_dms S1 D1) := hasFDerivAt_const 0 _
  have h3 : ∀ X : Blocks S1, (0 : Blocks S1 →L[ℝ] ℝ) X
      = ∑ k, ∑ a, ∑ p, ∑ q, agradZero (proj_dms S1 D1) k a p q * X k a p q := by
    intro X; simp
  exact ⟨h1, h2, h3,
    zero_functional_reduction S1 eig1 netZero agradZero id D1 h1 0 h2 h3⟩

/-- C9.  For every symmetric density matrix, the correction potential built
by `t_get_ec` is symmetric, given that the gradient blocks delivered by the
autodiff engine are symmetric (spec §4.5: `dE/dM_a` is symmetric by
construction since `M_a` is symmetric and the eigendecomposition's backward
pass preserves symmetry — a contract of the external engine). -/
theorem vc_symmetric (S : ProjShells nao natm) (eig : EigFun)
    (net : NetFun natm) (agrad : GradFun S) (D : DMat nao)
    (hD : ∀ r s, D r s = D s r)
    (hsym : ∀ k a p q, agrad (proj_dms S D) k a p q
        = agrad (proj_dms S D) k a q p) :
    ∀ r s, (t_get_ec S eig net agrad D).2 r s
        = (t_get_ec S eig net agrad D).2 s r := by
  intro r s
  show vc S (agrad (proj_dms S D)) r s = vc S (agrad (proj_dms S D)) s r
  unfold vc shell_vcs t_proj_aos
  refine Finset.sum_congr rfl fun k _ => Finset.sum_congr rfl fun a _ => ?_
  rw [Finset.sum_comm]
  refine Finset.sum_congr rfl fun p _ => Finset.sum_congr rfl fun q _ => ?_
  rw [hsym k a q p]
  ring

/-- Witness for C9 at the concrete instance (constant gradient blocks are
symmetric). -/
theorem vc_symmetric_witness :
    (∀ r s : Fin 1, D1 r s = D1 s r) ∧
    (∀ k a p q, agrad1 (proj_dms S1 D1) k a p q = agrad1 (proj_dms S1 D1) k a q p) ∧
    (∀ r s, (t_get_ec S1 eig1 net1 agrad1 D1).2 r s
        = (t_get_ec S1 eig1 net1 agrad1 D1).2 s r) :=
  ⟨fun _ _ => rfl, fun _ _ _ _ => rfl,
    vc_symmetric S1 eig1 net1 agrad1 D1 (fun _ _ => rfl) (fun _ _ _ _ => rfl)⟩

/-- C10.  The descriptor tensor returned by the side output `make_eig`
equals, element for element and ignoring the leading batch dimension, the
tensor `ceig` that `t_get_ec` builds and feeds to the learned functional:
the side output and the energy path compute the same descriptors. -/
theorem make_eig_matches_energy_path (S : ProjShells nao natm) (eig : EigFun)
    (net : NetFun natm) (agrad : GradFun S) (D : DMat nao) :
    (∀ (b : Fin 1) (a : Fin natm), ceig S eig D b a = make_eig S eig D a) ∧
    (t_get_ec S eig net agrad D).1 = net (fun _ => make_eig S eig D) :=
  ⟨fun _ _ => rfl, rfl⟩

end DeepQC

